import Mathlib

/-!
Verification development for the yamos note gateway.

The Rust sources are shallowly embedded: strings are `List Char` or `String`
(as convenient for each component), machine integers are `Nat` with explicit
`% 2^32` where overflow matters, fallible operations return `Option` or
`Except`, and the document-store HTTP backend is passed in as an explicit
oracle function.  Randomly generated identifiers (chunk ids) are supplied by
an explicit id-supply function.
-/

set_option maxRecDepth 4000

namespace Yamos

/-! ## Chunk codec (src/couchdb.rs) -/

/-- Mirrors `const CHUNK_SIZE: usize = 32` in src/couchdb.rs. -/
def CHUNK_SIZE : Nat := 32

/-- Byte length of a string, as Rust `str::len` counts it (UTF-8 bytes). -/
def utf8Len (l : List Char) : Nat := (l.map Char.utf8Size).sum

/-- Loop body of `split_into_chunks` (src/couchdb.rs lines 239-261): iterate
the content character by character, sealing the current chunk whenever
appending the next character would exceed `CHUNK_SIZE` bytes, then append the
final chunk when it is non-empty or no chunk was produced at all.  `ids n`
stands for the `generate_chunk_id()` call made for the `n`-th sealed chunk
(the Rust id is random; the supply function is explicit here). -/
def splitLoop (ids : Nat → String) :
    List Char → List (String × List Char) → List Char → Nat → List (String × List Char)
  | [], chunks, cur, _ =>
      if cur ≠ [] ∨ chunks = [] then chunks ++ [(ids chunks.length, cur)] else chunks
  | ch :: rest, chunks, cur, curSize =>
      if curSize + ch.utf8Size > CHUNK_SIZE ∧ cur ≠ [] then
        splitLoop ids rest (chunks ++ [(ids chunks.length, cur)]) [ch] ch.utf8Size
      else
        splitLoop ids rest chunks (cur ++ [ch]) (curSize + ch.utf8Size)

/-- Embedding of `CouchDbClient::split_into_chunks` (src/couchdb.rs). -/
def split_into_chunks (ids : Nat → String) (content : List Char) :
    List (String × List Char) :=
  splitLoop ids content [] [] 0

/-- Concatenation, in order, of the `data` fields of a chunk list; this is
what the read side (`decode_content`) produces for a `plain` note whose
children are exactly these chunks in this order. -/
def assemble_chunks (chunks : List (String × List Char)) : List Char :=
  (chunks.map Prod.snd).flatten

/-! ## Path validator (src/server.rs `validate_note_path`) -/

/-- Characters allowed by `validate_note_path` besides alphanumerics: the
Rust source checks `" -_./()'".contains(*c)`. -/
def allowedSymbols : List Char :=
  [' ', '-', '_', '.', '/', '(', ')', Char.ofNat 39]

/-- Wrap a string in single quotation marks, as the Rust error messages do. -/
def sq (s : String) : String :=
  String.mk (Char.ofNat 39 :: (s.toList ++ [Char.ofNat 39]))

/-- Embedding of `validate_note_path` (src/server.rs lines 11-30).  The
predicate `isAlnum` stands for Rust `char::is_alphanumeric`, the Unicode
alphanumeric test provided by the Rust core library (external to this
repository); every theorem below holds for an arbitrary such predicate. -/
def validate_note_path (isAlnum : Char → Bool) (path : List Char) :
    Except String Unit :=
  if path = [] then .error "Note path cannot be empty"
  else if ¬ ['.', 'm', 'd'] <:+ path then .error "Note path must end with .md"
  else if ['.', '.'] <:+: path then
    .error ("Note path cannot contain " ++ sq "..")
  else if path.head? = some '/' then
    .error ("Note path cannot start with " ++ sq "/")
  else if Char.ofNat 0 ∈ path then .error "Note path cannot contain null bytes"
  else
    match path.find? (fun c => !(isAlnum c || allowedSymbols.contains c)) with
    | some c =>
        .error ("Note path contains invalid character: " ++ sq (String.mk [c]))
    | none => .ok ()

/-- Model of Rust `char::is_alphanumeric` restricted to the Latin-1 range:
exact on every code point below U+0100 (ASCII alphanumerics, the Latin-1
letters, micro sign, ordinal indicators, superscript digits and vulgar
fractions; U+00D7 and U+00F7 are not alphanumeric).  Code points at U+0100
and above are mapped to `false`; none occur in the inputs considered. -/
def latin1IsAlphanumeric (c : Char) : Bool :=
  let n := c.toNat
  (48 ≤ n && n ≤ 57) || (65 ≤ n && n ≤ 90) || (97 ≤ n && n ≤ 122) ||
  n == 0xAA || n == 0xB2 || n == 0xB3 || n == 0xB5 || n == 0xB9 ||
  n == 0xBA || (0xBC ≤ n && n ≤ 0xBE) ||
  (0xC0 ≤ n && n ≤ 0xFF && n != 0xD7 && n != 0xF7)

/-- Character class named by the claim, following the words of the
specification (section 4.1): `[A-Za-z0-9 \-_./()']`.  This definition is
written from the specification, not from the source, for comparison with
the source's behaviour. -/
def claimAllowedChar (c : Char) : Bool :=
  let n := c.toNat
  (48 ≤ n && n ≤ 57) || (65 ≤ n && n ≤ 90) || (97 ≤ n && n ≤ 122) ||
  allowedSymbols.contains c

/-! ## PKCE verification (src/auth/authorization_code.rs `verify_pkce`)

The Rust code hashes the verifier bytes with SHA-256 (the `sha2` crate) and
compares the base64url-no-pad encoding of the digest with the stored
challenge.  SHA-256 and the base64url alphabet are implemented here
concretely, over byte lists (`List Nat`, each element < 256). -/

/-- Truncation to a 32-bit word. -/
def w32 (n : Nat) : Nat := n % 4294967296

/-- Rotation of a 32-bit word to the right by `k` positions. -/
def rotr (k x : Nat) : Nat := w32 ((x >>> k) ||| (x <<< (32 - k)))

/-- Bitwise complement of a 32-bit word. -/
def not32 (x : Nat) : Nat := x ^^^ 4294967295

/-- The sixty-four SHA-256 round constants of FIPS 180-4, as naturals. -/
def shaK : List Nat :=
  [1116352408, 1899447441, 3049323471, 3921009573, 961987163, 1508970993,
   2453635748, 2870763221, 3624381080, 310598401, 607225278, 1426881987,
   1925078388, 2162078206, 2614888103, 3248222580, 3835390401, 4022224774,
   264347078, 604807628, 770255983, 1249150122, 1555081692, 1996064986,
   2554220882, 2821834349, 2952996808, 3210313671, 3336571891, 3584528711,
   113926993, 338241895, 666307205, 773529912, 1294757372, 1396182291,
   1695183700, 1986661051, 2177026350, 2456956037, 2730485921, 2820302411,
   3259730800, 3345764771, 3516065817, 3600352804, 4094571909, 275423344,
   430227734, 506948616, 659060556, 883997877, 958139571, 1322822218,
   1537002063, 1747873779, 1955562222, 2024104815, 2227730452, 2361852424,
   2428436474, 2756734187, 3204031479, 3329325298]

/-- The eight SHA-256 initial hash words of FIPS 180-4, as naturals. -/
def shaH0 : List Nat :=
  [1779033703, 3144134277, 1013904242, 2773480762,
   1359893119, 2600822924, 528734635, 1541459225]

/-- Big-endian 8-byte encoding of a natural number (the padded bit length). -/
def be64 (n : Nat) : List Nat :=
  [n >>> 56 % 256, n >>> 48 % 256, n >>> 40 % 256, n >>> 32 % 256,
   n >>> 24 % 256, n >>> 16 % 256, n >>> 8 % 256, n % 256]

/-- SHA-256 message padding: a `0x80` byte, zeros, and the 64-bit big-endian
bit length, to a multiple of 64 bytes. -/
def shaPad (msg : List Nat) : List Nat :=
  let padLen := (64 - (msg.length + 9) % 64) % 64
  msg ++ [0x80] ++ List.replicate padLen 0 ++ be64 (8 * msg.length)

/-- Group bytes into big-endian 32-bit words. -/
def toWords32 : List Nat → List Nat
  | b0 :: b1 :: b2 :: b3 :: rest =>
      (((b0 * 256 + b1) * 256 + b2) * 256 + b3) :: toWords32 rest
  | _ => []

/-- Extend the 16-word message schedule by `n` further words. -/
def extendW : Nat → List Nat → List Nat
  | 0, acc => acc
  | n + 1, acc =>
      let len := acc.length
      let w15 := acc.getD (len - 15) 0
      let w2 := acc.getD (len - 2) 0
      let w16 := acc.getD (len - 16) 0
      let w7 := acc.getD (len - 7) 0
      let s0 := rotr 7 w15 ^^^ rotr 18 w15 ^^^ (w15 >>> 3)
      let s1 := rotr 17 w2 ^^^ rotr 19 w2 ^^^ (w2 >>> 10)
      extendW n (acc ++ [w32 (w16 + s0 + w7 + s1)])

/-- One SHA-256 compression round; the state is the list `[a,b,c,d,e,f,g,h]`,
`kw` the round constant paired with the schedule word. -/
def shaRound (st : List Nat) (kw : Nat × Nat) : List Nat :=
  match st with
  | [a, b, c, d, e, f, g, h] =>
      let s1 := rotr 6 e ^^^ rotr 11 e ^^^ rotr 25 e
      let ch := (e &&& f) ^^^ (not32 e &&& g)
      let t1 := w32 (h + s1 + ch + kw.1 + kw.2)
      let s0 := rotr 2 a ^^^ rotr 13 a ^^^ rotr 22 a
      let maj := (a &&& b) ^^^ (a &&& c) ^^^ (b &&& c)
      let t2 := w32 (s0 + maj)
      [w32 (t1 + t2), a, b, c, w32 (d + t1), e, f, g]
  | _ => st

/-- SHA-256 compression of one 64-byte block into the running hash. -/
def processBlock (h : List Nat) (block : List Nat) : List Nat :=
  let w := extendW 48 (toWords32 block)
  let final := (shaK.zip w).foldl shaRound h
  List.zipWith (fun x y => w32 (x + y)) h final

/-- Split bytes into 64-byte blocks; the fuel argument (an upper bound on
the list length) makes the recursion structural. -/
def toBlocksAux : Nat → List Nat → List (List Nat)
  | _, [] => []
  | 0, _ :: _ => []
  | fuel + 1, b :: rest => ((b :: rest).take 64) :: toBlocksAux fuel ((b :: rest).drop 64)

/-- Split the padded message into 64-byte blocks. -/
def toBlocks (l : List Nat) : List (List Nat) := toBlocksAux l.length l

/-- Big-endian 4-byte encoding of a 32-bit word. -/
def be32 (n : Nat) : List Nat :=
  [n >>> 24 % 256, n >>> 16 % 256, n >>> 8 % 256, n % 256]

/-- SHA-256 of a byte string, as a 32-byte digest. -/
def sha256 (msg : List Nat) : List Nat :=
  ((toBlocks (shaPad msg)).foldl processBlock shaH0).flatMap be32

/-- The base64url alphabet (RFC 4648 section 5). -/
def b64UrlAlphabet : List Char :=
  "ABCDEFGHIJKLMNOPQRSTUVWXYZabcdefghijklmnopqrstuvwxyz0123456789-_".toList

/-- Character for a 6-bit group. -/
def b64Char (n : Nat) : Char := b64UrlAlphabet.getD n 'A'

/-- Base64url encoding without padding (the `URL_SAFE_NO_PAD` engine of the
`base64` crate). -/
def b64UrlNoPad : List Nat → List Char
  | b0 :: b1 :: b2 :: rest =>
      b64Char (b0 >>> 2) :: b64Char ((b0 % 4) * 16 + (b1 >>> 4)) ::
      b64Char ((b1 % 16) * 4 + (b2 >>> 6)) :: b64Char (b2 % 64) ::
      b64UrlNoPad rest
  | [b0, b1] =>
      [b64Char (b0 >>> 2), b64Char ((b0 % 4) * 16 + (b1 >>> 4)),
       b64Char ((b1 % 16) * 4)]
  | [b0] => [b64Char (b0 >>> 2), b64Char ((b0 % 4) * 16)]
  | [] => []

/-- Embedding of `verify_pkce` (src/auth/authorization_code.rs lines
355-360): hash the verifier bytes, base64url-encode without padding, compare
with the stored challenge.  The verifier is given as its UTF-8 bytes
(`code_verifier.as_bytes()`). -/
def verify_pkce (code_verifier : List Nat) (code_challenge : String) : Bool :=
  String.mk (b64UrlNoPad (sha256 code_verifier)) == code_challenge

/-- Bytes of an ASCII string, for concrete PKCE inputs. -/
def asciiBytes (s : String) : List Nat := s.toList.map Char.toNat

/-! ## Redirect-URI policy (src/auth/authorization_code.rs `ClientRegistry`)

URL parsing is performed by the external `url` crate; it is embedded as an
explicit parameter `parse` returning the fields the source consults:
`scheme()`, `host_str()` and `path()`. -/

/-- Result of `Url::parse`, restricted to the fields the source reads. -/
structure ParsedUrl where
  scheme : String
  host : Option String
  path : String
deriving DecidableEq

/-- Embedding of `ClientRegistry::redirect_uri_matches` (src/auth/
authorization_code.rs lines 130-152): exact string match, or localhost
port flexibility when scheme, host and path agree. -/
def redirect_uri_matches (parse : String → Option ParsedUrl)
    (registered requested : String) : Bool :=
  if registered == requested then true
  else
    match parse registered, parse requested with
    | some regUrl, some reqUrl =>
        if regUrl.scheme == reqUrl.scheme then
          match regUrl.host, reqUrl.host with
          | some regHost, some reqHost =>
              (regHost == "localhost" || regHost == "127.0.0.1") &&
              regHost == reqHost && regUrl.path == reqUrl.path
          | _, _ => false
        else false
    | _, _ => false

/-- The dynamic client registry: `client_id` mapped to its registered
redirect URIs (the `created_at` field plays no role in validation). -/
def ClientRegistry := List (String × List String)

/-- Embedding of `ClientRegistry::validate_redirect_uri` (src/auth/
authorization_code.rs lines 72-126): parse, scheme policy, then the
registered-URI match when the client is known. -/
def validate_redirect_uri (parse : String → Option ParsedUrl)
    (clients : ClientRegistry) (client_id redirect_uri : String) :
    Except String Unit :=
  match parse redirect_uri with
  | none => .error "invalid redirect_uri: not a valid URL"
  | some parsed =>
    let schemeOk : Except String Unit :=
      if parsed.scheme = "https" then .ok ()
      else if parsed.scheme = "http" then
        match parsed.host with
        | some host =>
            if host ≠ "localhost" ∧ host ≠ "127.0.0.1" ∧ host ≠ "[::1]" then
              .error "invalid redirect_uri: http only allowed for localhost"
            else .ok ()
        | none => .ok ()
      else if parsed.scheme = "javascript" ∨ parsed.scheme = "data" ∨
              parsed.scheme = "vbscript" then
        .error ("invalid redirect_uri: " ++ parsed.scheme ++
                " scheme not allowed")
      else .ok ()
    match schemeOk with
    | .error e => .error e
    | .ok () =>
      match clients.lookup client_id with
      | some registered_uris =>
          if registered_uris.any
              (fun r => redirect_uri_matches parse r redirect_uri) then
            .ok ()
          else .error "invalid redirect_uri: not registered for this client"
      | none => .ok ()

/-! ## Pending-authorization store (src/auth/authorization_code.rs) -/

/-- Mirrors `const MAX_PENDING_AUTHORISATIONS: usize = 1000`. -/
def MAX_PENDING_AUTHORISATIONS : Nat := 1000

/-- PKCE code challenge methods (src/auth/traits.rs): S256 only. -/
inductive CodeChallengeMethod where
  | S256
deriving DecidableEq

/-- Embedding of `PendingAuthorization` (src/auth/authorization_code.rs);
`created_at` is an `Instant`, embedded as seconds. -/
structure PendingAuthorization where
  client_id : String
  redirect_uri : String
  code_challenge : String
  code_challenge_method : CodeChallengeMethod
  state : Option String
  created_at : Nat
deriving DecidableEq

/-- The `HashMap` of pending authorizations is embedded as an association
list whose keys stay distinct; insertion prepends after discarding any
previous binding, exactly preserving lookup, removal and size semantics. -/
def hmInsert {β : Type} (k : String) (v : β) (m : List (String × β)) :
    List (String × β) :=
  (k, v) :: m.filter (fun p => p.1 != k)

/-- `HashMap::remove`, on the association-list embedding. -/
def hmRemove {β : Type} (k : String) (m : List (String × β)) :
    List (String × β) :=
  m.filter (fun p => p.1 != k)

/-- Embedding of `AuthorizationStore`: the pending map plus the
`insertion_order` FIFO used for eviction. -/
structure AuthorizationStore where
  pending : List (String × PendingAuthorization)
  insertion_order : List String
deriving DecidableEq

/-- The store a fresh `AuthorizationStore::new()` holds. -/
def emptyStore : AuthorizationStore := ⟨[], []⟩

/-- Eviction loop of `store_pending`: while the map is at capacity, pop the
oldest code from the FIFO and remove it from the map; stop when under
capacity or when the FIFO is exhausted. -/
def evictLoop : List (String × PendingAuthorization) → List String →
    List (String × PendingAuthorization) × List String
  | pending, [] => (pending, [])
  | pending, code :: rest =>
      if pending.length ≥ MAX_PENDING_AUTHORISATIONS then
        evictLoop (hmRemove code pending) rest
      else (pending, code :: rest)

/-- Embedding of `AuthorizationStore::store_pending` (src/auth/
authorization_code.rs lines 160-179): evict while at capacity, insert, and
push the new code onto the FIFO. -/
def store_pending (s : AuthorizationStore) (code : String)
    (auth : PendingAuthorization) : AuthorizationStore :=
  let (pending, order) := evictLoop s.pending s.insertion_order
  { pending := hmInsert code auth pending,
    insertion_order := order ++ [code] }

/-- Embedding of `AuthorizationStore::take_pending` (src/auth/
authorization_code.rs lines 181-189): drop the code from the FIFO and remove
(and return) its record from the map. -/
def take_pending (s : AuthorizationStore) (code : String) :
    Option PendingAuthorization × AuthorizationStore :=
  (s.pending.lookup code,
   { pending := hmRemove code s.pending,
     insertion_order := s.insertion_order.filter (fun c => c != code) })

/-- Folding a sequence of `store_pending` calls over the empty store. -/
def foldStore (entries : List (String × PendingAuthorization)) :
    AuthorizationStore :=
  entries.foldl (fun st e => store_pending st e.1 e.2) emptyStore

/-- The most recent (at most) `MAX_PENDING_AUTHORISATIONS` of a sequence of
insertions: what the store retains after folding them. -/
def window (entries : List (String × PendingAuthorization)) :
    List (String × PendingAuthorization) :=
  entries.drop (entries.length - MAX_PENDING_AUTHORISATIONS)

/-! ## Credential validator (src/auth/client_credentials.rs) -/

/-- Embedding of `ClientInfo` (src/auth/traits.rs); credentials are byte
strings (`client_id.as_bytes()`). -/
structure ClientInfo where
  client_id : List Nat
  scopes : List String
deriving DecidableEq

/-- Constant-time byte-string equality (the `subtle` crate's `ct_eq`):
equal lengths required, then an XOR-fold across the bytes. -/
def ct_eq (a b : List Nat) : Bool :=
  a.length == b.length && (List.zipWith Nat.xor a b).all (· == 0)

/-- Modelled from the spec: `ClientRegistry::validate_credentials`, called
by `ClientValidator::validate`, is not present under src/.  Section 4.7 of
the specification says the dynamic registry check succeeds exactly when a
dynamically registered client with the given id and secret exists. -/
def registry_validate_credentials (registry : List (List Nat × List Nat))
    (client_id client_secret : List Nat) : Bool :=
  registry.any (fun p => p.1 == client_id && p.2 == client_secret)

/-- Embedding of `ClientValidator::validate` (src/auth/client_credentials.rs
lines 33-72): try the dynamic registry first; otherwise compare against the
static pair with constant-time equality, and on failure return the single
opaque error. -/
def client_validate (registry : List (List Nat × List Nat))
    (expected_client_id expected_client_secret : List Nat)
    (client_id client_secret : List Nat) : Except String ClientInfo :=
  if registry_validate_credentials registry client_id client_secret then
    .ok ⟨client_id, []⟩
  else
    let id_matches := ct_eq client_id expected_client_id
    let secret_matches := ct_eq client_secret expected_client_secret
    if id_matches && secret_matches then .ok ⟨client_id, []⟩
    else .error "Invalid client credentials"

/-! ## Note documents and the document-store client (src/couchdb.rs)

The CouchDB HTTP backend is embedded as oracle functions: `db` maps a
document id to its current `NoteDoc` (when the GET succeeds), `getLeaf` maps
a chunk id to its `data` field. -/

/-- Embedding of `NoteDoc` (src/couchdb.rs).  `eden` is an opaque JSON value
preserved round-trip; it is embedded as an opaque string. -/
structure NoteDoc where
  id : String
  rev : Option String
  path : String
  data : String
  ctime : Nat
  mtime : Nat
  size : Nat
  doc_type : String
  children : List String
  deleted : Option Bool
  eden : String
deriving DecidableEq

/-- Chunk-fetch loop of `decode_content`: fetch each child chunk in order
and append its `data`. -/
def fetchChunks (getLeaf : String → Option String) :
    List String → String → Option String
  | [], acc => some acc
  | chunk_id :: rest, acc =>
      match getLeaf chunk_id with
      | none => none
      | some data => fetchChunks getLeaf rest (acc ++ data)

/-- Embedding of `CouchDbClient::decode_content` (src/couchdb.rs lines
177-192).  `legacyDecode` stands for the external `BASE64.decode` followed
by `String::from_utf8` used for the legacy `notes` type; for any other type
the children are fetched in order and concatenated. -/
def decode_content (legacyDecode : String → Option String)
    (getLeaf : String → Option String) (doc : NoteDoc) : Option String :=
  if doc.doc_type = "notes" then legacyDecode doc.data
  else fetchChunks getLeaf doc.children ""

/-- One HTTP operation issued against the document store. -/
inductive DbOp where
  | getNote (id : String)
  | putNote (doc : NoteDoc)
  | putLeaf (id : String) (data : String)
  | deleteLeaf (id : String)
deriving DecidableEq

/-- Embedding of `CouchDbClient::delete_note` (src/couchdb.rs lines
415-451): fetch the existing document, and PUT it back with `deleted: true`
and the current time as `mtime`, every other field unchanged.  The result is
the document written together with the trace of store operations; `none`
when the note does not exist. -/
def delete_note (db : String → Option NoteDoc) (id : String) (now : Nat) :
    Option (NoteDoc × List DbOp) :=
  match db id with
  | none => none
  | some existing =>
      let doc : NoteDoc :=
        { id := existing.id
          rev := existing.rev
          path := existing.path
          data := existing.data
          ctime := existing.ctime
          mtime := now
          size := existing.size
          doc_type := existing.doc_type
          children := existing.children
          deleted := some true
          eden := existing.eden }
      some (doc, [DbOp.getNote id, DbOp.putNote doc])

/-- Embedding of `CouchDbClient::append_to_note` (src/couchdb.rs lines
407-412): fetch the note, decode its content, and save
`format!("{}\n{}", current_content, content)`.  The result is the content
string handed to `save_note`; `none` when the note does not exist or its
content fails to decode, in which case nothing is written. -/
def append_to_note (db : String → Option NoteDoc)
    (legacyDecode getLeaf : String → Option String)
    (id content : String) : Option String :=
  match db id with
  | none => none
  | some existing =>
      match decode_content legacyDecode getLeaf existing with
      | none => none
      | some current_content => some (current_content ++ "\n" ++ content)

/-! ## Search index and title extraction (src/search/mod.rs) -/

/-- Embedding of `NoteEntry` (src/search/mod.rs). -/
structure NoteEntry where
  path : String
  title : String
  content : String
  mtime : Nat
deriving DecidableEq

/-- Embedding of `SearchIndex` (src/search/mod.rs): path-keyed map plus the
`last_seq` watermark. -/
structure SearchIndex where
  notes : List (String × NoteEntry)
  last_seq : Option String
deriving DecidableEq

/-- The lines of a string as Rust `str::lines` yields them: split at
newlines, with a carriage return preceding the newline stripped.  (Rust
omits a final empty segment after a trailing newline; that segment is empty
and never affects the scan below.) -/
def rustLines (s : String) : List String :=
  (s.splitOn "\n").map (fun line =>
    if line.endsWith "\r" then line.dropRight 1 else line)

/-- Scanning loop of `extract_title`: skip YAML frontmatter delimited by
`---` lines, skip blank lines, return the first `# ` heading trimmed, and
stop at the first other non-empty line. -/
def titleScan : List String → Bool → Bool → Option String
  | [], _, _ => none
  | line :: rest, frontmatter_started, in_frontmatter =>
      let trimmed := line.trim
      if trimmed = "---" ∧ frontmatter_started = false then
        titleScan rest true true
      else if trimmed = "---" ∧ in_frontmatter = true then
        titleScan rest frontmatter_started false
      else if in_frontmatter then titleScan rest frontmatter_started true
      else if trimmed = "" then
        titleScan rest frontmatter_started in_frontmatter
      else if trimmed.startsWith "# " then some ((trimmed.drop 2).trim)
      else none

/-- Repeatedly strip a trailing `.md`, on the reversed character list
(Rust `trim_end_matches(".md")`). -/
def trimMdRev : List Char → List Char
  | 'd' :: 'm' :: '.' :: rest => trimMdRev rest
  | l => l

/-- Filename fallback of `extract_title`: the last `/`-segment of the path
with every trailing `.md` removed. -/
def titleFallback (path : String) : String :=
  String.mk (((trimMdRev path.toList.reverse).takeWhile (· ≠ '/')).reverse)

/-- Embedding of `extract_title` (src/search/mod.rs lines 152-197). -/
def extract_title (path content : String) : String :=
  (titleScan (rustLines content) false false).getD (titleFallback path)

/-! ## Change-feed watcher (src/search/watcher.rs) -/

/-- Embedding of `ChangeEvent` (src/search/watcher.rs): one parsed line of
the `_changes` feed.  `doc` is the included document, already parsed as a
`NoteDoc` (the watcher rejects lines whose document does not parse; such
events are outside the claims considered). -/
structure ChangeEvent where
  seq : String
  id : String
  deleted : Bool
  doc : Option NoteDoc
deriving DecidableEq

/-- Rust `str::starts_with`, expressed on the underlying characters. -/
def strStartsWith (s pre : String) : Bool := pre.data.isPrefixOf s.data

/-- Embedding of `ChangesWatcher::process_change` (src/search/watcher.rs
lines 134-186).  `decode` stands for `self.db.decode_content` (chunk
sub-fetches against the store); `none` models the error return when the
content fails to decode. -/
def process_change (decode : NoteDoc → Option String) (idx : SearchIndex)
    (change : ChangeEvent) : Option SearchIndex :=
  if strStartsWith change.id "h:" ∨ strStartsWith change.id "_" then
    some { idx with last_seq := some change.seq }
  else if change.deleted then
    some { notes := hmRemove change.id idx.notes, last_seq := some change.seq }
  else
    match change.doc with
    | some note_doc =>
        if note_doc.deleted = some true then
          some { notes := hmRemove change.id idx.notes,
                 last_seq := some change.seq }
        else
          match decode note_doc with
          | none => none
          | some content =>
              some { notes := hmInsert change.id
                       { path := change.id,
                         title := extract_title change.id content,
                         content := content,
                         mtime := note_doc.mtime } idx.notes,
                     last_seq := some change.seq }
    | none => some { idx with last_seq := some change.seq }

/-! ## Snippet extraction (src/search/mod.rs `extract_snippet`)

This function is modelled at the byte level: positions are UTF-8 byte
offsets into the character list, and every Rust string slice `&s[a..b]` is
embedded as a partial operation that fails (models a panic) when a bound is
not on a character boundary. -/

/-- Rust `char::is_whitespace`: the Unicode White_Space property, encoded
exactly (all 25 code points). -/
def rust_is_whitespace (c : Char) : Bool :=
  let n := c.toNat
  n == 0x09 || n == 0x0A || n == 0x0B || n == 0x0C || n == 0x0D ||
  n == 0x20 || n == 0x85 || n == 0xA0 || n == 0x1680 ||
  (0x2000 ≤ n && n ≤ 0x200A) || n == 0x2028 || n == 0x2029 ||
  n == 0x202F || n == 0x205F || n == 0x3000

/-- Model of Rust `char::to_lowercase` (used by `str::to_lowercase`):
exact on ASCII and on every code point whose lowercase mapping is itself —
which covers every character appearing in the inputs considered below.  The
handful of special multi-character mappings are not needed here. -/
def rust_to_lowercase (c : Char) : List Char :=
  if 'A' ≤ c ∧ c ≤ 'Z' then [Char.ofNat (c.toNat + 32)] else [c]

/-- Accumulator loop for `split_whitespace`. -/
def splitWsAux : List Char → List Char → List (List Char)
  | [], cur => if cur = [] then [] else [cur.reverse]
  | c :: rest, cur =>
      if rust_is_whitespace c then
        if cur = [] then splitWsAux rest []
        else cur.reverse :: splitWsAux rest []
      else splitWsAux rest (c :: cur)

/-- Rust `str::split_whitespace`: maximal non-whitespace runs. -/
def splitWs (l : List Char) : List (List Char) := splitWsAux l []

/-- Search loop for `str::find(&str)`, tracking the byte offset. -/
def byteFindAux (needle : List Char) : List Char → Nat → Option Nat
  | [], off => if needle.isPrefixOf ([] : List Char) then some off else none
  | c :: rest, off =>
      if needle.isPrefixOf (c :: rest) then some off
      else byteFindAux needle rest (off + c.utf8Size)

/-- Rust `str::find(&str)`: byte offset of the first occurrence. -/
def byteFind (haystack needle : List Char) : Option Nat :=
  byteFindAux needle haystack 0

/-- The prefix `s[..i]` of a string at byte offset `i`; `none` when `i` is
not on a character boundary or exceeds the length (a Rust panic). -/
def sliceTo : List Char → Nat → Option (List Char)
  | _, 0 => some []
  | [], _ + 1 => none
  | c :: rest, i + 1 =>
      if c.utf8Size ≤ i + 1 then (sliceTo rest (i + 1 - c.utf8Size)).map (c :: ·)
      else none

/-- The suffix `s[i..]` of a string at byte offset `i`; `none` when `i` is
not on a character boundary or exceeds the length (a Rust panic). -/
def sliceFrom : List Char → Nat → Option (List Char)
  | l, 0 => some l
  | [], _ + 1 => none
  | c :: rest, i + 1 =>
      if c.utf8Size ≤ i + 1 then sliceFrom rest (i + 1 - c.utf8Size)
      else none

/-- The slice `s[a..b]`; `none` models the panic on a non-boundary or
out-of-range bound. -/
def sliceRange (l : List Char) (a b : Nat) : Option (List Char) :=
  match sliceTo l b with
  | none => none
  | some p => sliceFrom p a

/-- Byte offset of the last whitespace character (`str::rfind`). -/
def rfindWsAux : List Char → Nat → Option Nat → Option Nat
  | [], _, best => best
  | c :: rest, off, best =>
      rfindWsAux rest (off + c.utf8Size)
        (if rust_is_whitespace c then some off else best)

/-- Rust `str::rfind(char::is_whitespace)` as a byte offset. -/
def rfindWs (l : List Char) : Option Nat := rfindWsAux l 0 none

/-- Byte offset of the first whitespace character (`str::find`). -/
def findWsAux : List Char → Nat → Option Nat
  | [], _ => none
  | c :: rest, off =>
      if rust_is_whitespace c then some off
      else findWsAux rest (off + c.utf8Size)

/-- Rust `str::find(char::is_whitespace)` as a byte offset. -/
def findWs (l : List Char) : Option Nat := findWsAux l 0

/-- Lift a partial operation into the panic-tracking monad: `none` becomes
a panic. -/
def orPanic {α : Type} : Option α → Except Unit α
  | some a => .ok a
  | none => .error ()

/-- Embedding of `extract_snippet` (src/search/mod.rs lines 200-247).
`Except.error ()` models a Rust panic (a string slice taken at a byte
offset that is not a character boundary); `Except.ok none` is the `None`
return, `Except.ok (some s)` the extracted snippet. -/
def extract_snippet (content query : List Char) :
    Except Unit (Option (List Char)) := do
  let content_lower := content.flatMap rust_to_lowercase
  let query_lower := query.flatMap rust_to_lowercase
  let query_words := splitWs query_lower
  match (query_words.filterMap (fun word => byteFind content_lower word)).min? with
  | none => return none
  | some match_pos =>
    let context_size := 50
    let start0 := match_pos - context_size
    let end0 := min (match_pos + context_size) (utf8Len content)
    let head ← orPanic (sliceTo content start0)
    let start1 ← (match rfindWs head with
      | some i => do
          let tail ← orPanic (sliceFrom content i)
          let ws_char ← orPanic tail.head?
          pure (i + ws_char.utf8Size)
      | none => pure start0)
    let tailPart ← orPanic (sliceFrom content end0)
    let end1 := match findWs tailPart with
      | some i => end0 + i
      | none => end0
    let snippet ← orPanic (sliceRange content start1 end1)
    let snippet := if start1 > 0 then "...".toList ++ snippet else snippet
    let snippet :=
      if end1 < utf8Len content then snippet ++ "...".toList else snippet
    return some (List.intercalate [' '] (splitWs snippet))

/-! ## Concrete inputs used by witnesses and counterexamples -/

/-- The RFC 7636 appendix-B verifier, as its ASCII bytes. -/
def pkceVerifier : List Nat :=
  asciiBytes "dBjftJeZ4CVP-mB92K27uhbUJU1p1r_wW1gFWFOEjXk"

/-- Concrete URL-parse oracle for the redirect-URI witness, agreeing with
the `url` crate on the URIs it covers. -/
def testParse : String → Option ParsedUrl
  | "https://app.example/cb" => some ⟨"https", some "app.example", "/cb"⟩
  | "http://localhost:5173/cb" => some ⟨"http", some "localhost", "/cb"⟩
  | "http://localhost/cb" => some ⟨"http", some "localhost", "/cb"⟩
  | "http://evil.example/cb" => some ⟨"http", some "evil.example", "/cb"⟩
  | "javascript:alert(1)" => some ⟨"javascript", none, "alert(1)"⟩
  | "myapp://cb" => some ⟨"myapp", some "cb", ""⟩
  | _ => none

/-- Concrete client registry for the redirect-URI witness. -/
def testRegistry : ClientRegistry :=
  [("client-1", ["https://app.example/cb", "http://localhost/cb"])]

/-- Distinct pending-authorization codes for the eviction witness: the code
of index `n` is `n` repetitions of `a`. -/
def witCode (n : Nat) : String := String.mk (List.replicate n 'a')

/-- Pending record stored under `witCode n` in the eviction witness. -/
def witAuth (n : Nat) : PendingAuthorization :=
  { client_id := witCode n
    redirect_uri := "http://localhost/cb"
    code_challenge := ""
    code_challenge_method := .S256
    state := none
    created_at := n }

/-- A sequence of 1001 `store_pending` inputs with distinct codes. -/
def witEntries : List (String × PendingAuthorization) :=
  (List.range 1001).map (fun n => (witCode n, witAuth n))

/-- Concrete note document for the delete/append witnesses. -/
def exDoc : NoteDoc :=
  { id := "Todo.md"
    rev := some "3-abc"
    path := "Todo.md"
    data := ""
    ctime := 100
    mtime := 200
    size := 5
    doc_type := "plain"
    children := ["h:aaaaaaaaaaaaa", "h:bbbbbbbbbbbbb"]
    deleted := none
    eden := "{}" }

/-- Concrete document-store oracle holding only `exDoc`. -/
def witDb : String → Option NoteDoc
  | "Todo.md" => some exDoc
  | _ => none

/-- Concrete chunk oracle for the append witness. -/
def witLeaf : String → Option String
  | "h:aaaaaaaaaaaaa" => some "hel"
  | "h:bbbbbbbbbbbbb" => some "lo"
  | _ => none

/-- Content whose lowercase match position minus 50 bytes lands inside the
four-byte character U+1F30D: the character, 48 copies of `a`, then the
match word at byte offset 52. -/
def snippetContent : List Char :=
  Char.ofNat 0x1F30D :: (List.replicate 48 'a' ++ "needle".toList)

/-- Query whose only token occurs at byte offset 52 of `snippetContent`. -/
def snippetQuery : List Char := "needle".toList

/-- Path exercising the character-class check: `é` followed by `.md`. -/
def accentPath : List Char := [Char.ofNat 0xE9, '.', 'm', 'd']

/-! ## Theorems -/

/-- Invariant of the chunking loop: the data already sealed, the current
chunk and the remaining input always concatenate to the final assembly. -/
theorem splitLoop_assemble (ids : Nat → String) (rest : List Char) :
    ∀ (chunks : List (String × List Char)) (cur : List Char) (curSize : Nat),
    assemble_chunks (splitLoop ids rest chunks cur curSize) =
      assemble_chunks chunks ++ cur ++ rest := by
  induction rest with
  | nil =>
      intro chunks cur curSize
      simp only [splitLoop]
      split
      · simp [assemble_chunks]
      · rename_i h
        push_neg at h
        simp [assemble_chunks, h.1]
  | cons ch rest ih =>
      intro chunks cur curSize
      simp only [splitLoop]
      split
      · rw [ih]
        simp [assemble_chunks]
      · rw [ih]
        simp

/-- The chunking loop always returns at least one chunk. -/
theorem splitLoop_length (ids : Nat → String) (rest : List Char) :
    ∀ (chunks : List (String × List Char)) (cur : List Char) (curSize : Nat),
    1 ≤ (splitLoop ids rest chunks cur curSize).length := by
  induction rest with
  | nil =>
      intro chunks cur curSize
      simp only [splitLoop]
      split
      · simp
      · rename_i h
        push_neg at h
        have : chunks ≠ [] := h.2
        exact Nat.succ_le_of_lt (List.length_pos.mpr this)
  | cons ch rest ih =>
      intro chunks cur curSize
      simp only [splitLoop]
      split
      · exact ih _ _ _
      · exact ih _ _ _

/-- C1: for every content string (including the empty string, strings
shorter than 32 bytes, and strings with multi-byte code points) and every
chunk-id supply, concatenating in order the data fields of the chunks
produced by `split_into_chunks` yields exactly the content, and at least
one chunk is produced. -/
theorem split_into_chunks_roundtrip (ids : Nat → String) (content : List Char) :
    assemble_chunks (split_into_chunks ids content) = content ∧
    1 ≤ (split_into_chunks ids content).length := by
  constructor
  · have h := splitLoop_assemble ids content [] [] 0
    simpa [split_into_chunks, assemble_chunks] using h
  · exact splitLoop_length ids content [] [] 0

/-- C5 (amended): for every alphanumericity predicate and every path,
`validate_note_path` returns an error if and only if the path is empty, or
does not end in `.md`, or contains `..`, or starts with `/`, or contains a
NUL byte, or contains a character that is neither alphanumeric (in the sense
of the predicate, which stands for Rust `char::is_alphanumeric`) nor one of
space, hyphen, underscore, dot, slash, parentheses, apostrophe. -/
theorem validate_note_path_spec (isAlnum : Char → Bool) (path : List Char) :
    (validate_note_path isAlnum path).isOk = false ↔
      path = [] ∨ ¬ (['.', 'm', 'd'] <:+ path) ∨ ['.', '.'] <:+: path ∨
      path.head? = some '/' ∨ Char.ofNat 0 ∈ path ∨
      ∃ c ∈ path, ¬(isAlnum c = true ∨ c ∈ allowedSymbols) := by
  unfold validate_note_path
  by_cases h1 : path = []
  · rw [if_pos h1]
    exact iff_of_true rfl (Or.inl h1)
  rw [if_neg h1]
  by_cases h2 : ['.', 'm', 'd'] <:+ path
  · rw [if_neg (not_not_intro h2)]
    by_cases h3 : ['.', '.'] <:+: path
    · rw [if_pos h3]
      exact iff_of_true rfl (Or.inr (Or.inr (Or.inl h3)))
    rw [if_neg h3]
    by_cases h4 : path.head? = some '/'
    · rw [if_pos h4]
      exact iff_of_true rfl (Or.inr (Or.inr (Or.inr (Or.inl h4))))
    rw [if_neg h4]
    by_cases h5 : Char.ofNat 0 ∈ path
    · rw [if_pos h5]
      exact iff_of_true rfl (Or.inr (Or.inr (Or.inr (Or.inr (Or.inl h5)))))
    rw [if_neg h5]
    rcases hf : path.find? (fun c => !(isAlnum c || allowedSymbols.contains c))
      with _ | c
    · rw [List.find?_eq_none] at hf
      refine iff_of_false (by simp [Except.isOk, Except.toBool]) ?_
      rintro (h | h | h | h | h | ⟨c, hc, hpred⟩)
      · exact h1 h
      · exact h h2
      · exact h3 h
      · exact h4 h
      · exact h5 h
      · have hok := hf c hc
        simp only [Bool.not_eq_true', Bool.not_eq_false] at hok
        rcases Bool.or_eq_true_iff.mp hok with hl | hr
        · exact hpred (Or.inl hl)
        · exact hpred (Or.inr (by simpa using hr))
    · have hmem := List.mem_of_find?_eq_some hf
      have hpred := List.find?_some hf
      refine iff_of_true rfl ?_
      refine Or.inr (Or.inr (Or.inr (Or.inr (Or.inr ⟨c, hmem, ?_⟩))))
      simp at hpred
      intro hcl
      rcases hcl with hl | hr
      · simp [hl] at hpred
      · exact hpred.2 hr
  · rw [if_pos h2]
    exact iff_of_true rfl (Or.inr (Or.inl h2))

/-- C5 counterexample: the path `é.md` (U+00E9 followed by `.md`) is
accepted by the source (Rust `char::is_alphanumeric` holds of `é`), yet it
contains a character outside the character class `[A-Za-z0-9 \-_./()']`
named by the claim, at which the claim therefore demands rejection. -/
theorem validate_note_path_claim_counterexample :
    (validate_note_path latin1IsAlphanumeric accentPath).isOk = true ∧
    ∃ c ∈ accentPath, claimAllowedChar c = false := by
  refine ⟨by decide, Char.ofNat 0xE9, by decide, by decide⟩

/-- C2: for every verifier byte string, `verify_pkce` accepts the
base64url-no-pad encoding of its SHA-256 digest as stored challenge, and
rejects every stored challenge different from that encoding. -/
theorem verify_pkce_spec (code_verifier : List Nat) (code_challenge : String) :
    verify_pkce code_verifier
      (String.mk (b64UrlNoPad (sha256 code_verifier))) = true ∧
    (code_challenge ≠ String.mk (b64UrlNoPad (sha256 code_verifier)) →
      verify_pkce code_verifier code_challenge = false) := by
  constructor
  · simp [verify_pkce]
  · intro h
    exact beq_eq_false_iff_ne.mpr (Ne.symm h)

/-- Witness for C2, at the RFC 7636 appendix-B verifier and at a challenge
that is not the encoded digest. -/
theorem verify_pkce_spec_witness :
    verify_pkce pkceVerifier
      (String.mk (b64UrlNoPad (sha256 pkceVerifier))) = true ∧
    verify_pkce pkceVerifier "E9M" = false :=
  ⟨(verify_pkce_spec pkceVerifier "E9M").1,
   (verify_pkce_spec pkceVerifier "E9M").2 (by decide)⟩

/-- The implemented hash and encoding reproduce the RFC 7636 appendix-B
challenge for its example verifier. -/
example :
    String.mk (b64UrlNoPad (sha256 pkceVerifier)) =
      "E9Melhoa2OwvFrEMTJguCHaoeK1t8URWbuGJSstw-cM" := by decide

/-- C3: `validate_redirect_uri` rejects URIs that do not parse; with the
scheme policy — `https` accepted, `http` accepted exactly for the hosts
`localhost`, `127.0.0.1` and `[::1]`, the schemes `javascript`, `data` and
`vbscript` rejected, any other scheme accepted; a client present in the
registry additionally requires a match against one of its registered URIs;
a client absent from the registry passes.  (For `http` the external URL
parser always reports a host, so that case is stated for parses carrying
one.) -/
theorem validate_redirect_uri_spec (parse : String → Option ParsedUrl)
    (clients : ClientRegistry) (client_id redirect_uri : String) :
    (parse redirect_uri = none →
      (validate_redirect_uri parse clients client_id redirect_uri).isOk
        = false) ∧
    (∀ u, parse redirect_uri = some u →
      (u.scheme = "https" → clients.lookup client_id = none →
        (validate_redirect_uri parse clients client_id redirect_uri).isOk
          = true) ∧
      (∀ h, u.scheme = "http" → u.host = some h →
        clients.lookup client_id = none →
        ((validate_redirect_uri parse clients client_id redirect_uri).isOk
            = true ↔
          h = "localhost" ∨ h = "127.0.0.1" ∨ h = "[::1]")) ∧
      (u.scheme = "javascript" ∨ u.scheme = "data" ∨ u.scheme = "vbscript" →
        (validate_redirect_uri parse clients client_id redirect_uri).isOk
          = false) ∧
      (u.scheme ≠ "https" → u.scheme ≠ "http" → u.scheme ≠ "javascript" →
        u.scheme ≠ "data" → u.scheme ≠ "vbscript" →
        clients.lookup client_id = none →
        (validate_redirect_uri parse clients client_id redirect_uri).isOk
          = true) ∧
      (∀ uris, clients.lookup client_id = some uris →
        (validate_redirect_uri parse clients client_id redirect_uri).isOk
          = true →
        ∃ r ∈ uris, redirect_uri_matches parse r redirect_uri = true)) := by
  constructor
  · intro hp
    simp [validate_redirect_uri, hp, Except.isOk, Except.toBool]
  · intro u hp
    refine ⟨?_, ?_, ?_, ?_, ?_⟩
    · intro hs hlook
      simp [validate_redirect_uri, hp, hs, hlook, Except.isOk, Except.toBool]
    · intro h hs hhost hlook
      by_cases hc : h = "localhost" ∨ h = "127.0.0.1" ∨ h = "[::1]"
      · have hne : ¬(h ≠ "localhost" ∧ h ≠ "127.0.0.1" ∧ h ≠ "[::1]") := by
          tauto
        simp [validate_redirect_uri, hp, hs, hhost, hlook, hne, hc,
          Except.isOk, Except.toBool]
      · have hne : h ≠ "localhost" ∧ h ≠ "127.0.0.1" ∧ h ≠ "[::1]" := by
          tauto
        simp [validate_redirect_uri, hp, hs, hhost, hlook, hne, hc,
          Except.isOk, Except.toBool]
    · rintro (hs | hs | hs) <;>
        simp [validate_redirect_uri, hp, hs, Except.isOk, Except.toBool]
    · intro h1 h2 h3 h4 h5 hlook
      simp [validate_redirect_uri, hp, h1, h2, h3, h4, h5, hlook,
        Except.isOk, Except.toBool]
    · intro uris hlur hok
      unfold validate_redirect_uri at hok
      rw [hp] at hok
      dsimp only at hok
      split at hok
      · simp [Except.isOk, Except.toBool] at hok
      · rw [hlur] at hok
        by_cases hany :
            uris.any (fun r => redirect_uri_matches parse r redirect_uri)
              = true
        · exact List.any_eq_true.mp hany
        · simp [hany, Except.isOk, Except.toBool] at hok

/-- Witness for C3: the conjuncts exercised at concrete inputs — an
unparseable URI, an `https` URI for an unregistered client, and a
`javascript:` URI. -/
theorem validate_redirect_uri_spec_witness :
    (validate_redirect_uri testParse testRegistry "client-1" "nota url").isOk
      = false ∧
    (validate_redirect_uri testParse testRegistry "unknown-client"
      "https://app.example/cb").isOk = true ∧
    (validate_redirect_uri testParse testRegistry "client-1"
      "javascript:alert(1)").isOk = false := by
  refine ⟨?_, ?_, ?_⟩
  · exact (validate_redirect_uri_spec testParse testRegistry "client-1"
      "nota url").1 (by decide)
  · exact (((validate_redirect_uri_spec testParse testRegistry
      "unknown-client" "https://app.example/cb").2
      ⟨"https", some "app.example", "/cb"⟩ (by decide)).1 rfl (by decide))
  · exact (((validate_redirect_uri_spec testParse testRegistry "client-1"
      "javascript:alert(1)").2
      ⟨"javascript", none, "alert(1)"⟩ (by decide)).2.2.1 (Or.inl rfl))

/-- Filtering an association list by a key absent from it changes nothing. -/
theorem hmFilter_eq_self {β : Type} (k : String) (m : List (String × β))
    (h : k ∉ m.map Prod.fst) : m.filter (fun p => p.1 != k) = m := by
  induction m with
  | nil => rfl
  | cons p rest ih =>
      simp only [List.map_cons, List.mem_cons] at h
      push_neg at h
      rw [List.filter_cons_of_pos (by simpa using Ne.symm h.1)]
      rw [ih h.2]

/-- A store strictly under capacity is untouched by the eviction loop. -/
theorem evictLoop_of_lt (pending : List (String × PendingAuthorization))
    (order : List String)
    (h : pending.length < MAX_PENDING_AUTHORISATIONS) :
    evictLoop pending order = (pending, order) := by
  cases order with
  | nil => rfl
  | cons c rest =>
      unfold evictLoop
      rw [if_neg (by omega)]

/-- In an association list with distinct keys, `lookup` finds exactly the
value a pair carries. -/
theorem lookup_eq_some_of_mem {β : Type} [BEq β]
    (m : List (String × β)) (k : String) (v : β)
    (hnd : (m.map Prod.fst).Nodup) (hmem : (k, v) ∈ m) :
    m.lookup k = some v := by
  induction m with
  | nil => cases hmem
  | cons p rest ih =>
      simp only [List.map_cons, List.nodup_cons] at hnd
      rcases List.mem_cons.mp hmem with heq | hmem'
      · rw [← heq]
        simp [List.lookup]
      · have hk : k ≠ p.1 := by
          intro hkp
          exact hnd.1 (hkp ▸ (List.mem_map.mpr ⟨(k, v), hmem', rfl⟩))
        have : (k == p.1) = false := beq_eq_false_iff_ne.mpr hk
        cases p with
        | mk a b =>
            simp only [List.lookup]
            simp only at this
            rw [this]
            exact ih hnd.2 hmem'

/-- `lookup` misses every key absent from an association list. -/
theorem lookup_eq_none_of_not_mem {β : Type} [BEq β]
    (m : List (String × β)) (k : String) (h : k ∉ m.map Prod.fst) :
    m.lookup k = none := by
  induction m with
  | nil => rfl
  | cons p rest ih =>
      simp only [List.map_cons, List.mem_cons] at h
      push_neg at h
      have : (k == p.1) = false := beq_eq_false_iff_ne.mpr h.1
      cases p with
      | mk a b =>
          simp only [List.lookup]
          simp only at this
          rw [this]
          exact ih h.2

/-- Invariant of folding `store_pending` over distinct codes from the empty
store: the map holds exactly the entries of the retention window, most
recent first, and the FIFO lists the window codes in insertion order. -/
theorem foldStore_invariant (entries : List (String × PendingAuthorization))
    (hnd : (entries.map Prod.fst).Nodup) :
    (foldStore entries).pending = (window entries).reverse ∧
    (foldStore entries).insertion_order = (window entries).map Prod.fst := by
  induction entries using List.reverseRecOn with
  | nil => exact ⟨rfl, rfl⟩
  | append_singleton l e ih =>
      rw [List.map_append, List.nodup_append] at hnd
      obtain ⟨hndl, -, hdisj⟩ := hnd
      have hkey : e.1 ∉ l.map Prod.fst := by
        intro hmem
        exact hdisj hmem (by simp)
      obtain ⟨hp, ho⟩ := ih hndl
      have hfold : foldStore (l ++ [e]) = store_pending (foldStore l) e.1 e.2 := by
        simp [foldStore, List.foldl_append]
      have hwkeys : ((window l).map Prod.fst).Nodup := by
        have : (window l).map Prod.fst =
            (l.map Prod.fst).drop (l.length - MAX_PENDING_AUTHORISATIONS) := by
          simp [window, List.map_drop]
        rw [this]
        exact hndl.sublist (List.drop_sublist _ _)
      have hkeyw : e.1 ∉ (window l).map Prod.fst := by
        intro hmem
        apply hkey
        have : (window l).map Prod.fst =
            (l.map Prod.fst).drop (l.length - MAX_PENDING_AUTHORISATIONS) := by
          simp [window, List.map_drop]
        rw [this] at hmem
        exact List.mem_of_mem_drop hmem
      by_cases hlen : l.length < MAX_PENDING_AUTHORISATIONS
      · have hw : window l = l := by
          simp [window, Nat.sub_eq_zero_of_le (Nat.le_of_lt hlen)]
        have hw' : window (l ++ [e]) = l ++ [e] := by
          have hz : l.length + 1 - MAX_PENDING_AUTHORISATIONS = 0 := by omega
          simp [window, hz]
        rw [hfold]
        unfold store_pending
        rw [hp, ho, hw]
        rw [evictLoop_of_lt _ _ (by simpa using hlen)]
        constructor
        · show hmInsert e.1 e.2 l.reverse = (window (l ++ [e])).reverse
          rw [hw']
          unfold hmInsert
          rw [hmFilter_eq_self _ _ (by simpa using hkey)]
          cases e with
          | mk a b => simp
        · show l.map Prod.fst ++ [e.1] = (window (l ++ [e])).map Prod.fst
          rw [hw']
          simp
      · push_neg at hlen
        have hlw : (window l).length = MAX_PENDING_AUTHORISATIONS := by
          simp only [window, List.length_drop]
          omega
        obtain ⟨w, rest, hwr⟩ : ∃ w rest, window l = w :: rest := by
          cases hwin : window l with
          | nil =>
              rw [hwin] at hlw
              simp [MAX_PENDING_AUTHORISATIONS] at hlw
          | cons w rest => exact ⟨w, rest, rfl⟩
        have hrest : rest.length = MAX_PENDING_AUTHORISATIONS - 1 := by
          have := hlw
          rw [hwr] at this
          simp at this
          omega
        have hwnd : (w.1 :: rest.map Prod.fst).Nodup := by
          have := hwkeys
          rw [hwr] at this
          simpa using this
        have hw1rest : w.1 ∉ rest.map Prod.fst := (List.nodup_cons.mp hwnd).1
        have hkeyrest : e.1 ∉ rest.map Prod.fst := by
          intro hmem
          apply hkeyw
          rw [hwr]
          simp [hmem]
        rw [hfold]
        unfold store_pending
        rw [hp, ho, hwr]
        have hevict :
            evictLoop ((w :: rest).reverse) ((w :: rest).map Prod.fst) =
              (rest.reverse, rest.map Prod.fst) := by
          have hlenp : (w :: rest).reverse.length ≥ MAX_PENDING_AUTHORISATIONS := by
            simp only [List.length_reverse, List.length_cons]
            omega
          show evictLoop ((w :: rest).reverse) (w.1 :: rest.map Prod.fst) =
            (rest.reverse, rest.map Prod.fst)
          unfold evictLoop
          rw [if_pos hlenp]
          have hrem : hmRemove w.1 ((w :: rest).reverse) = rest.reverse := by
            unfold hmRemove
            rw [List.reverse_cons, List.filter_append]
            rw [hmFilter_eq_self _ _ (by simpa using hw1rest)]
            cases w with
            | mk a b => simp
          rw [hrem]
          apply evictLoop_of_lt
          simp only [List.length_reverse]
          have hmax : MAX_PENDING_AUTHORISATIONS = 1000 := rfl
          omega
        rw [hevict]
        have hw' : window (l ++ [e]) = rest ++ [e] := by
          have hmax : MAX_PENDING_AUTHORISATIONS = 1000 := rfl
          have hml : l.length - MAX_PENDING_AUTHORISATIONS + 1 ≤ l.length := by
            omega
          have hstep : (l ++ [e]).length - MAX_PENDING_AUTHORISATIONS =
              l.length - MAX_PENDING_AUTHORISATIONS + 1 := by
            simp only [List.length_append, List.length_cons, List.length_nil]
            omega
          have hdrop :
              l.drop (l.length - MAX_PENDING_AUTHORISATIONS + 1) = rest := by
            have h3 : (window l).drop 1 =
                l.drop (l.length - MAX_PENDING_AUTHORISATIONS + 1) := by
              unfold window
              rw [List.drop_drop]
            rw [← h3, hwr]
            rfl
          unfold window
          rw [hstep, List.drop_append_of_le_length hml, hdrop]
        constructor
        · show hmInsert e.1 e.2 rest.reverse = (window (l ++ [e])).reverse
          rw [hw']
          unfold hmInsert
          rw [hmFilter_eq_self _ _ (by simpa using hkeyrest)]
          cases e with
          | mk a b => simp
        · show rest.map Prod.fst ++ [e.1] = (window (l ++ [e])).map Prod.fst
          rw [hw']
          simp

/-- C4: after any sequence of `store_pending` calls with more than 1000
distinct codes, starting from the empty store and with no intervening
`take_pending` or `cleanup_expired`, the store holds exactly 1000 entries;
`take_pending` returns the stored record for each of the 1000 most recently
inserted codes, and nothing for every earlier code. -/
theorem store_pending_lru (entries : List (String × PendingAuthorization))
    (hnd : (entries.map Prod.fst).Nodup)
    (hlen : MAX_PENDING_AUTHORISATIONS < entries.length) :
    (foldStore entries).pending.length = MAX_PENDING_AUTHORISATIONS ∧
    (∀ i (h : i < entries.length),
      entries.length - MAX_PENDING_AUTHORISATIONS ≤ i →
      (take_pending (foldStore entries) (entries.get ⟨i, h⟩).1).1 =
        some (entries.get ⟨i, h⟩).2) ∧
    (∀ i (h : i < entries.length),
      i < entries.length - MAX_PENDING_AUTHORISATIONS →
      (take_pending (foldStore entries) (entries.get ⟨i, h⟩).1).1 = none) := by
  obtain ⟨hp, ho⟩ := foldStore_invariant entries hnd
  have hwkeys : (window entries).map Prod.fst =
      (entries.map Prod.fst).drop
        (entries.length - MAX_PENDING_AUTHORISATIONS) := by
    simp [window, List.map_drop]
  have hwnodup : (((window entries).reverse).map Prod.fst).Nodup := by
    rw [List.map_reverse, List.nodup_reverse, hwkeys]
    exact hnd.sublist (List.drop_sublist _ _)
  refine ⟨?_, ?_, ?_⟩
  · rw [hp]
    simp only [List.length_reverse, window, List.length_drop]
    omega
  · intro i h hge
    have hj : i - (entries.length - MAX_PENDING_AUTHORISATIONS) <
        (window entries).length := by
      simp only [window, List.length_drop]
      omega
    have hwi : (window entries).get ⟨i -
        (entries.length - MAX_PENDING_AUTHORISATIONS), hj⟩ =
        entries.get ⟨i, h⟩ := by
      have hidx : entries.length - MAX_PENDING_AUTHORISATIONS +
          (i - (entries.length - MAX_PENDING_AUTHORISATIONS)) = i := by omega
      rw [List.get_eq_getElem, List.get_eq_getElem]
      simp only [window]
      rw [List.getElem_drop]
      simp only [hidx]
    have hmem : entries.get ⟨i, h⟩ ∈ (window entries).reverse := by
      rw [List.mem_reverse, ← hwi]
      exact List.get_mem _ _ _
    have hpair : ((entries.get ⟨i, h⟩).1, (entries.get ⟨i, h⟩).2) ∈
        (window entries).reverse := by
      rw [Prod.mk.eta]
      exact hmem
    have hlook := lookup_eq_some_of_mem ((window entries).reverse)
      (entries.get ⟨i, h⟩).1 (entries.get ⟨i, h⟩).2 hwnodup hpair
    have hre : (take_pending (foldStore entries) (entries.get ⟨i, h⟩).1).1 =
        (foldStore entries).pending.lookup (entries.get ⟨i, h⟩).1 := rfl
    rw [hre, hp]
    exact hlook
  · intro i h hlt
    have hsplit := List.take_append_drop
      (entries.length - MAX_PENDING_AUTHORISATIONS) (entries.map Prod.fst)
    have hnd2 := hnd
    rw [← hsplit, List.nodup_append] at hnd2
    obtain ⟨-, -, hdisj⟩ := hnd2
    have hlen2 : i < ((entries.map Prod.fst).take
        (entries.length - MAX_PENDING_AUTHORISATIONS)).length := by
      simp only [List.length_take, List.length_map]
      omega
    have heq : ((entries.map Prod.fst).take
        (entries.length - MAX_PENDING_AUTHORISATIONS)).get ⟨i, hlen2⟩ =
        (entries.get ⟨i, h⟩).1 := by
      rw [List.get_eq_getElem, List.get_eq_getElem]
      rw [List.getElem_take, List.getElem_map]
    have hktake : (entries.get ⟨i, h⟩).1 ∈ (entries.map Prod.fst).take
        (entries.length - MAX_PENDING_AUTHORISATIONS) := by
      rw [← heq]
      exact List.get_mem _ _ _
    have hnmem : (entries.get ⟨i, h⟩).1 ∉
        ((window entries).reverse).map Prod.fst := by
      rw [List.map_reverse, List.mem_reverse, hwkeys]
      intro hmem
      exact hdisj hktake hmem
    have hlook := lookup_eq_none_of_not_mem ((window entries).reverse)
      (entries.get ⟨i, h⟩).1 hnmem
    have hre : (take_pending (foldStore entries) (entries.get ⟨i, h⟩).1).1 =
        (foldStore entries).pending.lookup (entries.get ⟨i, h⟩).1 := rfl
    rw [hre, hp]
    exact hlook

/-- The eviction-witness codes are pairwise distinct. -/
theorem witCode_injective : Function.Injective witCode := by
  intro m n hmn
  have hdata : List.replicate m 'a' = List.replicate n 'a' :=
    congrArg String.data hmn
  have := congrArg List.length hdata
  simpa using this

/-- The keys of the eviction-witness entries are distinct. -/
theorem witEntries_nodup : (witEntries.map Prod.fst).Nodup := by
  have hmap : witEntries.map Prod.fst = (List.range 1001).map witCode := by
    simp [witEntries, List.map_map]
  rw [hmap]
  exact (List.nodup_range 1001).map witCode_injective

/-- The eviction witness performs 1001 insertions. -/
theorem witEntries_length : witEntries.length = 1001 := by
  simp [witEntries]

/-- Witness for C4: after inserting the 1001 distinct codes of
`witEntries`, the store holds 1000 entries, the most recent code is
retrievable with its record, and the first code is gone. -/
theorem store_pending_lru_witness :
    (foldStore witEntries).pending.length = MAX_PENDING_AUTHORISATIONS ∧
    (take_pending (foldStore witEntries) (witCode 1000)).1 =
      some (witAuth 1000) ∧
    (take_pending (foldStore witEntries) (witCode 0)).1 = none := by
  have hmax : MAX_PENDING_AUTHORISATIONS = 1000 := rfl
  obtain ⟨h1, h2, h3⟩ := store_pending_lru witEntries witEntries_nodup
    (by rw [witEntries_length]; omega)
  have hlt1 : (1000 : Nat) < witEntries.length := by
    rw [witEntries_length]; omega
  have hlt0 : (0 : Nat) < witEntries.length := by
    rw [witEntries_length]; omega
  have hget1 : witEntries.get ⟨1000, hlt1⟩ = (witCode 1000, witAuth 1000) := by
    rw [List.get_eq_getElem]
    simp only [witEntries, List.getElem_map, List.getElem_range]
  have hget0 : witEntries.get ⟨0, hlt0⟩ = (witCode 0, witAuth 0) := by
    rw [List.get_eq_getElem]
    simp only [witEntries, List.getElem_map, List.getElem_range]
  refine ⟨h1, ?_, ?_⟩
  · have h := h2 1000 hlt1 (by rw [witEntries_length]; omega)
    rw [hget1] at h
    exact h
  · have h := h3 0 hlt0 (by rw [witEntries_length]; omega)
    rw [hget0] at h
    exact h

/-- C6: whenever `process_change` completes successfully on a change event
carrying sequence `S`, the index watermark `last_seq` equals `S` afterwards
— for a chunk (`h:*`) or system (`_*`) id, a hard delete, a soft delete, an
active-note upsert, and an event with no included document; and for a chunk
or system id the index entries are untouched. -/
theorem process_change_spec (decode : NoteDoc → Option String)
    (idx : SearchIndex) (change : ChangeEvent) (idx2 : SearchIndex)
    (h : process_change decode idx change = some idx2) :
    idx2.last_seq = some change.seq ∧
    ((strStartsWith change.id "h:" ∨ strStartsWith change.id "_") →
      idx2.notes = idx.notes) := by
  unfold process_change at h
  split at h
  · cases h
    exact ⟨rfl, fun _ => rfl⟩
  · rename_i hid
    split at h
    · cases h
      exact ⟨rfl, fun hx => absurd hx hid⟩
    · split at h
      · split at h
        · cases h
          exact ⟨rfl, fun hx => absurd hx hid⟩
        · split at h
          · cases h
          · cases h
            exact ⟨rfl, fun hx => absurd hx hid⟩
      · cases h
        exact ⟨rfl, fun hx => absurd hx hid⟩

/-- Witness for C6 at a concrete chunk-id event: the sequence advances and
the index entries are unchanged. -/
theorem process_change_spec_witness :
    (SearchIndex.mk [] (some "7-seq")).last_seq = some "7-seq" ∧
    ((strStartsWith "h:abc" "h:" ∨ strStartsWith "h:abc" "_") →
      (SearchIndex.mk [] (some "7-seq")).notes =
        (SearchIndex.mk [] none).notes) :=
  process_change_spec (fun _ => some "") (SearchIndex.mk [] none)
    (ChangeEvent.mk "7-seq" "h:abc" false none)
    (SearchIndex.mk [] (some "7-seq")) (by rfl)

/-- C7: for every existing note, `delete_note` writes back the fetched
document with `deleted` set to `true` and `mtime` set to the current time,
every other field unchanged (id, rev, path, data, ctime, size, doc_type,
children, eden), and the operation trace deletes no chunk document. -/
theorem delete_note_spec (db : String → Option NoteDoc) (id : String)
    (now : Nat) (existing : NoteDoc) (h : db id = some existing) :
    ∃ doc ops, delete_note db id now = some (doc, ops) ∧
      doc.deleted = some true ∧ doc.mtime = now ∧
      doc.id = existing.id ∧ doc.rev = existing.rev ∧
      doc.path = existing.path ∧ doc.data = existing.data ∧
      doc.ctime = existing.ctime ∧ doc.size = existing.size ∧
      doc.doc_type = existing.doc_type ∧
      doc.children = existing.children ∧ doc.eden = existing.eden ∧
      (∀ cid, DbOp.deleteLeaf cid ∉ ops) := by
  unfold delete_note
  rw [h]
  refine ⟨_, _, rfl, rfl, rfl, rfl, rfl, rfl, rfl, rfl, rfl, rfl, rfl, rfl,
    ?_⟩
  intro cid
  simp

/-- Witness for C7 at the concrete store holding `exDoc`. -/
theorem delete_note_spec_witness :
    ∃ doc ops, delete_note witDb "Todo.md" 999 = some (doc, ops) ∧
      doc.deleted = some true ∧ doc.mtime = 999 ∧
      doc.id = exDoc.id ∧ doc.rev = exDoc.rev ∧
      doc.path = exDoc.path ∧ doc.data = exDoc.data ∧
      doc.ctime = exDoc.ctime ∧ doc.size = exDoc.size ∧
      doc.doc_type = exDoc.doc_type ∧
      doc.children = exDoc.children ∧ doc.eden = exDoc.eden ∧
      (∀ cid, DbOp.deleteLeaf cid ∉ ops) :=
  delete_note_spec witDb "Todo.md" 999 exDoc (by rfl)

/-- C8 (behaviour at the failing input): on content consisting of U+1F30D,
48 copies of `a` and the word `needle`, with query `needle`, the byte
offset `match_pos - 50 = 2` is not a character boundary, so the slice
`&content[..start]` taken before any boundary snapping panics; the
embedding returns the panic marker. -/
theorem extract_snippet_panics :
    extract_snippet snippetContent snippetQuery = .error () := by rfl

/-- C9: every failing run of `ClientValidator::validate` produces the same
single opaque error, whichever of the two credentials mismatched. -/
theorem client_validate_opaque_error (registry : List (List Nat × List Nat))
    (expected_client_id expected_client_secret : List Nat)
    (id1 sec1 id2 sec2 : List Nat) (e1 e2 : String)
    (h1 : client_validate registry expected_client_id expected_client_secret
      id1 sec1 = .error e1)
    (h2 : client_validate registry expected_client_id expected_client_secret
      id2 sec2 = .error e2) :
    e1 = e2 ∧ e1 = "Invalid client credentials" := by
  have key : ∀ cid sec e,
      client_validate registry expected_client_id expected_client_secret
        cid sec = .error e → e = "Invalid client credentials" := by
    intro cid sec e h
    simp only [client_validate] at h
    split at h
    · cases h
    · split at h
      · cases h
      · cases h
        rfl
  have k1 := key _ _ _ h1
  have k2 := key _ _ _ h2
  exact ⟨k1.trans k2.symm, k1⟩

/-- Witness for C9: one run failing on the client id, one failing on the
secret, against static credentials `[1]`/`[2]` and an empty registry. -/
theorem client_validate_opaque_error_witness :
    ("Invalid client credentials" : String) = "Invalid client credentials" ∧
    ("Invalid client credentials" : String) = "Invalid client credentials" :=
  client_validate_opaque_error [] [1] [2] [9] [2] [1] [9]
    "Invalid client credentials" "Invalid client credentials"
    (by rfl) (by rfl)

/-- C10: for an existing note whose content decodes to `c_old`,
`append_to_note` saves exactly `c_old`, one newline, then the appended
string (also when `c_old` is empty or ends in a newline); when the note
does not exist it fails and saves nothing. -/
theorem append_to_note_spec (db : String → Option NoteDoc)
    (legacyDecode getLeaf : String → Option String) (id x : String)
    (existing : NoteDoc) (c_old : String) :
    (db id = some existing →
      decode_content legacyDecode getLeaf existing = some c_old →
      append_to_note db legacyDecode getLeaf id x =
        some (c_old ++ "\n" ++ x)) ∧
    (db id = none → append_to_note db legacyDecode getLeaf id x = none) := by
  constructor
  · intro h1 h2
    unfold append_to_note
    rw [h1]
    dsimp only
    rw [h2]
  · intro h1
    unfold append_to_note
    rw [h1]

/-- Witness for C10: appending to the two-chunk note `hello` inserts one
separator newline; appending to a missing note fails. -/
theorem append_to_note_spec_witness :
    append_to_note witDb (fun _ => none) witLeaf "Todo.md" "new line" =
      some ("hello" ++ "\n" ++ "new line") ∧
    append_to_note witDb (fun _ => none) witLeaf "missing.md" "x" = none :=
  ⟨(append_to_note_spec witDb (fun _ => none) witLeaf "Todo.md" "new line"
      exDoc "hello").1 (by rfl) (by rfl),
   (append_to_note_spec witDb (fun _ => none) witLeaf "missing.md" "x"
      exDoc "hello").2 (by rfl)⟩

end Yamos
